import Mathlib

/-!
Verification of the configuration resolution pipeline of the tmpl repository.

The development embeds the Go sources shallowly:

* strings and byte slices are `List Char` (`Str` below); Go compares and
  sorts strings bytewise, which for UTF-8 agrees with the codepoint order
  used here;
* `map[string]any` values decoded from YAML are association lists with
  unique keys (a Go map cannot hold duplicate keys); iteration order of a
  Go map is irrelevant to the functions modelled here because
  `decryptValues` sorts the keys first and `ExpandMap` updates each key
  independently;
* external capabilities (the sops `DecryptFile` binary, the YAML parser,
  filesystem and network reads, the git clone transport) are opaque
  function parameters, exactly as the spec treats them;
* fallible Go functions returning `(T, error)` become `Except Err T`.

Functions are named after the Go functions they embed
(`internal/values/loader.go`, `internal/env` and `internal/source`
packages).  `filepath.Join` is modelled as plain separator concatenation:
no claim depends on path cleaning.
-/

/-- Go strings / byte slices, as lists of characters. -/
abbrev Str := List Char

/-- The `any` values produced by `yaml.Unmarshal` into `map[string]any`:
a mapping, a list, or a scalar (string, number, boolean, null).
Mappings are association lists with unique keys, modelling Go maps. -/
inductive Val where
  | str  : Str → Val
  | num  : Int → Val
  | bool : Bool → Val
  | null : Val
  | list : List Val → Val
  | map  : List (Str × Val) → Val

/-- Go `error` values: the sentinel `fs.ErrNotExist`, a plain message, or a
`fmt.Errorf("...: %w", err)` wrapper around a cause. -/
inductive Err where
  | notExist : Err
  | simple : Str → Err
  | wrap : Str → Err → Err
deriving Repr, DecidableEq

/-- The `http.BasicAuth` credential pair used by the git source. -/
structure BasicAuth where
  user : Str
  pass : Str
deriving Repr, DecidableEq

/-- The `".enc"` secret marker of `decryptValues`. -/
def encMark : Str := ".enc".toList

/-- The doubled marker `".enc.enc"`, used to state when stripping one
marker still leaves a marked key. -/
def encMark2 : Str := ".enc.enc".toList

/-- `strings.HasSuffix k ".enc"`. -/
def endsEnc (k : Str) : Bool := encMark.isSuffixOf k

/-- `strings.TrimSuffix k ".enc"`: drops one trailing `".enc"` if present. -/
def trimEnc (k : Str) : Str := if endsEnc k then k.take (k.length - 4) else k

/-- Bytewise `<` on Go strings, as used by `sort.Strings`. -/
def strLt : Str → Str → Bool
  | [], [] => false
  | [], _ :: _ => true
  | _ :: _, [] => false
  | a :: as, b :: bs => if a = b then strLt as bs else decide (a < b)

/-- The ordering on mapping entries used to sort keys before decryption:
`x` may precede `y` when `y`'s key is not strictly below `x`'s. -/
def keyLe (x y : Str × Val) : Prop := strLt y.1 x.1 = false

instance : DecidableRel keyLe := fun x y => by
  unfold keyLe; infer_instance

/-- `filepath.IsAbs` on Unix: the path starts with a slash. -/
def isAbs (p : Str) : Bool :=
  match p with
  | [] => false
  | c :: _ => c = '/'

/-- `filepath.Join a b`, without the cleaning step (no claim depends on
path normalisation). -/
def joinPath (a b : Str) : Str := a ++ '/' :: b

/-- Whitespace as trimmed by `bytes.TrimSpace` (ASCII part; the extra
Unicode space classes never occur in the claims). -/
def isSpaceChar (c : Char) : Bool :=
  c = ' ' ∨ c = '\t' ∨ c = '\n' ∨ c = '\r' ∨ c = Char.ofNat 11 ∨ c = Char.ofNat 12

/-- `bytes.TrimSpace`. -/
def trimSpace (s : Str) : Str :=
  ((s.dropWhile isSpaceChar).reverse.dropWhile isSpaceChar).reverse

/-- Assignment `m[k] = v` on a Go map represented as an association list:
an existing binding of `k` is overwritten in place, otherwise the new
binding is appended. -/
def mapInsert (m : List (Str × Val)) (k : Str) (v : Val) : List (Str × Val) :=
  if m.any (fun p => p.1 = k) then
    m.map (fun p => if p.1 = k then (k, v) else p)
  else
    m ++ [(k, v)]

/-- Go map read `m[k]`: the binding of `k`, if any. -/
def lookupV : List (Str × Val) → Str → Option Val
  | [], _ => none
  | (k, v) :: rest, n => if k = n then some v else lookupV rest n

/-- Read of the resolver's variable table (`r.env[key]`). -/
def tblGet : List (Str × Str) → Str → Option Str
  | [], _ => none
  | (k, v) :: rest, n => if k = n then some v else tblGet rest n

/-- The character class `[A-Z0-9_]` of the `envPattern` regular
expression. -/
def isVarChar (c : Char) : Bool :=
  ('A' ≤ c ∧ c ≤ 'Z') ∨ ('0' ≤ c ∧ c ≤ '9') ∨ c = '_'

/-- Matching the regular expression tail `[A-Z0-9_]+\x7d` at the current
position: given the text following `"${"`, return the variable name and
the text after the closing brace, or `none` when the pattern does not
match here. -/
def parseVar (r : Str) : Option (Str × Str) :=
  match r.dropWhile isVarChar with
  | '}' :: r2 =>
    if r.takeWhile isVarChar = [] then none else some (r.takeWhile isVarChar, r2)
  | _ => none

/-- A permutation of a list leaves its `sizeOf` unchanged (used for the
termination of `decryptValues`, which sorts the entries first). -/
theorem perm_sizeOf_eq {α} [SizeOf α] {l₁ l₂ : List α} (h : l₁.Perm l₂) :
    sizeOf l₁ = sizeOf l₂ := by
  induction h with
  | nil => rfl
  | cons x _ ih => simp [ih]
  | swap x y l => simp; omega
  | trans _ _ ih₁ ih₂ => omega

/-- A value found in an association list is smaller than the list (used
for the termination of the merge recursion). -/
theorem lookupV_sizeOf_lt {b : List (Str × Val)} {k : Str} {vb : Val}
    (h : lookupV b k = some vb) : sizeOf vb < sizeOf b := by
  induction b with
  | nil => simp [lookupV] at h
  | cons p rest ih =>
    obtain ⟨k1, v1⟩ := p
    rw [lookupV] at h
    by_cases hk : k1 = k
    · rw [if_pos hk] at h
      injection h with h1
      subst h1
      simp
      omega
    · rw [if_neg hk] at h
      have := ih h
      simp
      omega

/-- Length bound for a successful `parseVar` match (termination of
`expandCore`). -/
theorem parseVar_length {r n r2 : Str} (h : parseVar r = some (n, r2)) :
    r2.length < r.length := by
  unfold parseVar at h
  split at h
  · next heq =>
    split at h
    · exact absurd h (by simp)
    · have hle : (List.dropWhile isVarChar r).length ≤ r.length :=
        (List.dropWhile_sublist isVarChar).length_le
      rw [heq] at hle
      simp only [Option.some.injEq, Prod.mk.injEq] at h
      obtain ⟨-, h2⟩ := h
      subst h2
      simp at hle
      omega
  · exact absurd h (by simp)

/-- `Loader.decryptValue` (`loader.go` lines 174 to 194): resolve the
reference against `baseDir` when relative, call the opaque decryptor
`dec` (sops `DecryptFile`), trim whitespace, return `""` for empty
plaintext, otherwise the YAML parse `yp` of the plaintext when it
succeeds and the trimmed plaintext string when it does not. -/
def decryptValue (dec : Str → Except Err Str) (yp : Str → Option Val)
    (ref baseDir : Str) : Except Err Val :=
  let path := if ¬ isAbs ref ∧ baseDir ≠ [] then joinPath baseDir ref else ref
  match dec path with
  | .error e => .error (.wrap ("decrypt ".toList ++ ref) e)
  | .ok data =>
    if trimSpace data = [] then .ok (.str [])
    else
      match yp (trimSpace data) with
      | some parsed => .ok parsed
      | none => .ok (.str (trimSpace data))

mutual

/-- `Loader.decryptValues` (`loader.go` lines 132 to 172): walk the tree;
mappings are rebuilt by processing entries in sorted key order, writing
each processed value under the key with one `".enc"` suffix stripped;
lists are processed elementwise; a string is decrypted exactly when it
itself ends in `".enc"`; other scalars pass through.  The Go `default`
branch is spelled out as the three scalar arms. -/
def decryptValues (dec : Str → Except Err Str) (yp : Str → Option Val)
    (baseDir : Str) : Val → Except Err Val
  | .map es =>
    (match decryptEntries dec yp baseDir (List.insertionSort keyLe es) [] with
     | .ok r => .ok (.map r)
     | .error e => .error e)
  | .list vs =>
    (match decryptItems dec yp baseDir vs with
     | .ok r => .ok (.list r)
     | .error e => .error e)
  | .str s =>
    if endsEnc s then decryptValue dec yp s baseDir else .ok (.str s)
  | .num n => .ok (.num n)
  | .bool b => .ok (.bool b)
  | .null => .ok .null
termination_by v => sizeOf v
decreasing_by
  all_goals simp_wf
  all_goals try rw [perm_sizeOf_eq (List.perm_insertionSort keyLe es)]
  all_goals omega

/-- The sorted-key loop body of `decryptValues` for a mapping: process
each entry in order, accumulating `result[newKey] = processedValue`. -/
def decryptEntries (dec : Str → Except Err Str) (yp : Str → Option Val)
    (baseDir : Str) : List (Str × Val) → List (Str × Val) → Except Err (List (Str × Val))
  | [], acc => .ok acc
  | (k, v) :: rest, acc =>
    (match decryptValues dec yp baseDir v with
     | .error e => .error e
     | .ok pv => decryptEntries dec yp baseDir rest (mapInsert acc (trimEnc k) pv))
termination_by es _ => sizeOf es
decreasing_by
  all_goals simp_wf
  all_goals omega

/-- The list loop of `decryptValues`: process the elements in order. -/
def decryptItems (dec : Str → Except Err Str) (yp : Str → Option Val)
    (baseDir : Str) : List Val → Except Err (List Val)
  | [] => .ok []
  | v :: rest =>
    (match decryptValues dec yp baseDir v with
     | .error e => .error e
     | .ok pv =>
       match decryptItems dec yp baseDir rest with
       | .error e => .error e
       | .ok pr => .ok (pv :: pr))
termination_by vs => sizeOf vs
decreasing_by
  all_goals simp_wf
  all_goals omega

end

/-- `Resolver.Expand`'s regular-expression replacement
(`envPattern.ReplaceAllFunc`): scan left to right; at each `"${"` whose
following text matches `[A-Z0-9_]+` and a closing brace, substitute the
table's value when the name is bound and keep the matched text verbatim
when it is not, resuming after the match (replacements are not
rescanned); every other character is copied. -/
def expandCore (tbl : List (Str × Str)) : Str → Str
  | [] => []
  | '$' :: '{' :: rest1 =>
    (match hp : parseVar rest1 with
     | some (name, rest2) =>
       (match tblGet tbl name with
        | some v => v
        | none => '$' :: '{' :: (name ++ ['}'])) ++ expandCore tbl rest2
     | none => '$' :: expandCore tbl ('{' :: rest1))
  | c :: rest => c :: expandCore tbl rest
termination_by s => s.length
decreasing_by
  · have := parseVar_length hp; simp; omega
  · simp
  · simp

/-- Whether `envPattern` matches anywhere in the text: the spec's notion
of the input containing a placeholder. -/
def hasPlaceholder : Str → Bool
  | [] => false
  | '$' :: '{' :: rest1 =>
    (match parseVar rest1 with
     | some _ => true
     | none => hasPlaceholder ('{' :: rest1))
  | _ :: rest => hasPlaceholder rest

/-- `Resolver.Expand` itself: the replacement together with the `nil`
error of the Go signature (the function returns `..., nil`
unconditionally; the `len(groups) != 2` guard is unreachable because a
match of `envPattern` always carries its one capture group). -/
def Expand (tbl : List (Str × Str)) (data : Str) : Except Err Str :=
  .ok (expandCore tbl data)

mutual

/-- `Resolver.ExpandMap` (`internal/env` package, lines 100 to 130):
expand each string value, recurse into mapping values, and for list
values expand string elements and recurse into mapping elements,
leaving every other element (including a nested list) untouched.  The
Go function mutates its map in place over a range loop; the rebuild
below binds the same keys in stored order, which is the same final map.
The error return of the Go function is always `nil` because `Expand`
never fails, so the model is total. -/
def expandMapE (tbl : List (Str × Str)) : List (Str × Val) → List (Str × Val)
  | [] => []
  | (k, v) :: rest =>
    (k,
      match v with
      | .str s => .str (expandCore tbl s)
      | .map m => .map (expandMapE tbl m)
      | .list items => .list (expandItemsE tbl items)
      | other => other) :: expandMapE tbl rest
termination_by es => sizeOf es
decreasing_by
  all_goals simp_wf
  all_goals omega

/-- The inner list loop of `ExpandMap`: string and mapping elements only. -/
def expandItemsE (tbl : List (Str × Str)) : List Val → List Val
  | [] => []
  | item :: rest =>
    (match item with
     | .str s => .str (expandCore tbl s)
     | .map m => .map (expandMapE tbl m)
     | other => other) :: expandItemsE tbl rest
termination_by vs => sizeOf vs
decreasing_by
  all_goals simp_wf
  all_goals omega

end

mutual

/-- Modelled from the spec: the Merge Engine (`mergo.Merge` with
`mergo.WithOverride` in `Load`), whose implementation is the third-party
mergo library and is not part of this repository's sources.  Spec 4.6:
deep merge with override — two mappings merge key-by-key recursively; in
every other combination (scalar or list incoming, or a type mismatch at
the root) the incoming layer wins outright. -/
def mergeVal : Val → Val → Val
  | .map a, .map b =>
    .map (mergeOver a b ++ b.filter fun p => (lookupV a p.1).isNone)
  | _, inc => inc
termination_by va vb => sizeOf va + sizeOf vb
decreasing_by
  all_goals simp_wf
  all_goals omega

/-- Modelled from the spec: the accumulator side of the deep merge — each
accumulator entry keeps its key, its value merged with the incoming
binding of the same key when one exists and kept unchanged otherwise. -/
def mergeOver : List (Str × Val) → List (Str × Val) → List (Str × Val)
  | [], _ => []
  | (k, va) :: rest, b =>
    (match hb : lookupV b k with
     | some vb => (k, mergeVal va vb)
     | none => (k, va)) :: mergeOver rest b
termination_by a b => sizeOf a + sizeOf b
decreasing_by
  all_goals simp_wf
  all_goals try have := lookupV_sizeOf_lt hb
  all_goals omega

end

/-- Modelled from the spec: the mapping-level merge — updated accumulator
entries followed by the incoming entries whose keys are new. -/
def mergeEntries (a b : List (Str × Val)) : List (Str × Val) :=
  mergeOver a b ++ b.filter fun p => (lookupV a p.1).isNone

/-- `errors.Is err fs.ErrNotExist`: the sentinel itself or any wrapper
chain around it. -/
def isNotExist : Err → Bool
  | .notExist => true
  | .wrap _ e => isNotExist e
  | .simple _ => false

/-- The `extraFiles` loop of `Loader.Load` (`loader.go` lines 69 to 77):
read each file in the order given, merging each decoded tree into the
accumulator; the first failure aborts the load. -/
def loadGo (readFn : Str → Except Err (List (Str × Val))) :
    List Str → List (Str × Val) → Except Err (List (Str × Val))
  | [], acc => .ok acc
  | f :: rest, acc =>
    match readFn f with
    | .error e => .error e
    | .ok d => loadGo readFn rest (mergeEntries acc d)

/-- The path of the base values file read by `Load`: the chart path,
defaulted to `"."` when empty, joined with `values.yaml`. -/
def basePath (chartPath : Str) : Str :=
  joinPath (if chartPath = [] then ".".toList else chartPath) "values.yaml".toList

/-- `Loader.Load` (`loader.go` lines 56 to 80): default the chart path to
`"."`, read `chartPath/values.yaml` through the per-file pipeline
`readFn` (= `readValuesFile`: fetch, expand, decode, decrypt), tolerate
only a not-exist failure of that base file by starting from the empty
tree, then fold the extra files. -/
def Load (readFn : Str → Except Err (List (Str × Val)))
    (chartPath : Str) (extraFiles : List Str) : Except Err (List (Str × Val)) :=
  match readFn (basePath chartPath) with
  | .error e => if isNotExist e then loadGo readFn extraFiles [] else .error e
  | .ok m => loadGo readFn extraFiles m

/-- The four source kinds of `ParseScheme` (`internal/source` package). -/
inductive Scheme where
  | local : Scheme
  | git : Scheme
  | s3 : Scheme
  | oci : Scheme
deriving Repr, DecidableEq

/-- `source.ParseScheme` (`internal/source` package, lines 57 to 68):
classify a path by its leading marker (`git+`, `s3://`, `oci://`),
anything else being local. -/
def ParseScheme (path : Str) : Scheme :=
  if "git+".toList.isPrefixOf path then .git
  else if "s3://".toList.isPrefixOf path then .s3
  else if "oci://".toList.isPrefixOf path then .oci
  else .local

/-- The branching read of `readValuesFile` (`loader.go` lines 87 to 101)
that fills `data`, `err` and `baseDir`.  In the local branch
`os.ReadFile`'s error lands in the outer `err` (modelled as the `some`
component).  In the remote branch, `src, err := l.sourceFactory.New(path)`
declares a BLOCK-SCOPED `err`, surfaced directly when non-nil; the
subsequent `data, err = src.Fetch(ctx)` assigns the fetch error to that
shadowed variable, so the outer `err` stays nil: a failed fetch leaves
`data` nil and reports no error.  The model returns `none` for the outer
`err` in both fetch outcomes, which is exactly the shadowing bug. -/
def readRaw (localRead : Str → Except Err Str)
    (factoryNew : Str → Except Err Unit) (fetch : Str → Except Err Str)
    (dirOf : Str → Str) (path : Str) : Except Err (Str × Option Err × Str) :=
  if ParseScheme path = Scheme.local then
    match localRead path with
    | .ok d => .ok (d, none, dirOf path)
    | .error e => .ok ([], some e, dirOf path)
  else
    match factoryNew path with
    | .error e => .error e
    | .ok _ =>
      match fetch path with
      | .ok d => .ok (d, none, [])
      | .error _ => .ok ([], none, [])

/-- `Loader.readValuesFile` (`loader.go` lines 82 to 130): reject the
empty path, read raw bytes through `readRaw` (with the fetch-error
shadowing described there), surface the outer `err` (a bare
`fs.ErrNotExist`, anything else wrapped), expand the environment
(`Expand` never fails, so its error branch is dead), decode the YAML
through the opaque `ydec` (`yaml.Unmarshal` into `map[string]any`),
decrypt the tree, and require a mapping root. -/
def readValuesFile (localRead : Str → Except Err Str)
    (factoryNew : Str → Except Err Unit) (fetch : Str → Except Err Str)
    (tbl : List (Str × Str)) (ydec : Str → Except Err (List (Str × Val)))
    (dec : Str → Except Err Str) (yp : Str → Option Val)
    (dirOf : Str → Str) (path : Str) : Except Err (List (Str × Val)) :=
  if path = [] then .error (.simple "values file path is empty".toList)
  else
    match readRaw localRead factoryNew fetch dirOf path with
    | .error e => .error e
    | .ok (data, oerr, baseDir) =>
      match oerr with
      | some e =>
        if isNotExist e then .error e
        else .error (.wrap ("read values file ".toList ++ path) e)
      | none =>
        match ydec (expandCore tbl data) with
        | .error e => .error (.wrap ("decode yaml ".toList ++ path) e)
        | .ok decoded =>
          match decryptValues dec yp baseDir (.map decoded) with
          | .error e => .error (.wrap ("decrypt secrets in ".toList ++ path) e)
          | .ok (.map result) => .ok result
          | .ok _ => .error (.simple ("values file must decode to an object ".toList ++ path))

/-- `basicAuthFromEnv` (`internal/source` package, lines 136 to 143):
credentials from `TMPL_GIT_USERNAME` / `TMPL_GIT_PASSWORD`; `nil` only
when both variables are empty. -/
def basicAuthFromEnv (user pass : Str) : Option BasicAuth :=
  if user = [] ∧ pass = [] then none else some ⟨user, pass⟩

/-- The clone phase of `gitSource.Fetch` (lines 98 to 114): one anonymous
clone attempt through the opaque transport `clone`; on failure, a single
authenticated retry when `basicAuthFromEnv` is non-nil, the surviving
error being wrapped as the clone failure. -/
def cloneWithRetry {α : Type} (clone : Option BasicAuth → Except Err α)
    (user pass : Str) : Except Err α :=
  match clone none with
  | .ok r => .ok r
  | .error e =>
    match basicAuthFromEnv user pass with
    | some auth =>
      (match clone (some auth) with
       | .ok r => .ok r
       | .error e2 => .error (.wrap "clone git source ".toList e2))
    | none => .error (.wrap "clone git source ".toList e)

mutual

/-- No mapping key anywhere in the value carries the suffix `m`
(instantiated with `".enc"` for the spec's output invariant and with
`".enc.enc"` for the input proviso that forces it). -/
def noMarkKeys (m : Str) : Val → Bool
  | .map es => noMarkEntries m es
  | .list vs => noMarkItems m vs
  | .str _ => true
  | .num _ => true
  | .bool _ => true
  | .null => true
termination_by v => sizeOf v

/-- Entry form of `noMarkKeys`. -/
def noMarkEntries (m : Str) : List (Str × Val) → Bool
  | [] => true
  | (k, v) :: rest => !(m.isSuffixOf k) && noMarkKeys m v && noMarkEntries m rest
termination_by es => sizeOf es
decreasing_by
  all_goals simp_wf
  all_goals omega

/-- Item form of `noMarkKeys`. -/
def noMarkItems (m : Str) : List Val → Bool
  | [] => true
  | v :: rest => noMarkKeys m v && noMarkItems m rest
termination_by vs => sizeOf vs
decreasing_by
  all_goals simp_wf
  all_goals omega

end

/-- A decryptor for concrete instances: every reference decrypts to the
plaintext `"secret123"`. -/
def dec0 : Str → Except Err Str := fun _ => .ok "secret123".toList

/-- A YAML scalar parser for concrete instances: a plain scalar parses as
the string itself (as `yaml.Unmarshal` does for unquoted words). -/
def yp0 : Str → Option Val := fun s => some (.str s)

/-- A decryptor whose every plaintext is `"x"`. -/
def dec2 : Str → Except Err Str := fun _ => .ok "x".toList

/-- A parser that never recognises structured text. -/
def yp2 : Str → Option Val := fun _ => none

/-- A git transport that rejects the anonymous clone and accepts any
authenticated one. -/
def clone1 : Option BasicAuth → Except Err Nat
  | none => .error (.simple "auth required".toList)
  | some _ => .ok 7

/-- A variable table binding only `FOO`. -/
def tbl1 : List (Str × Str) := [("FOO".toList, "bar".toList)]

/-- A git transport that accepts every clone. -/
def cloneOk : Option BasicAuth → Except Err Nat := fun _ => .ok 3

/-- A per-file pipeline for concrete instances: the file `extra1` decodes
to `{"a": 1}`, the file `bad` fails, and everything else (the base file
included) does not exist. -/
def readFn0 : Str → Except Err (List (Str × Val)) := fun p =>
  if p = "extra1".toList then .ok [("a".toList, Val.num 1)]
  else if p = "bad".toList then .error (.simple "boom".toList)
  else .error .notExist

/-- A local filesystem on which no file exists. -/
def localRead0 : Str → Except Err Str := fun _ => .error .notExist

/-- A source factory that recognises every remote location. -/
def factoryNew0 : Str → Except Err Unit := fun _ => .ok ()

/-- A remote transport whose every fetch fails. -/
def fetch0 : Str → Except Err Str := fun _ => .error (.simple "fetch failed".toList)

/-- A YAML decoder for concrete instances: empty input leaves the target
mapping empty (as `yaml.Unmarshal` does), anything else decodes to
`{"a": 1}`. -/
def ydec0 : Str → Except Err (List (Str × Val)) := fun contents =>
  if contents = [] then .ok [] else .ok [("a".toList, Val.num 1)]

/-- A directory resolver for concrete instances. -/
def dirOf0 : Str → Str := fun _ => []

/-- Whether a value is a mapping (for the merge override statements). -/
def isMapV : Val → Bool
  | .map _ => true
  | _ => false

/-- Unfolding `expandCore` on the empty text. -/
theorem expandCore_nil (tbl : List (Str × Str)) : expandCore tbl [] = [] := by
  rw [expandCore.eq_def]

/-- Unfolding `expandCore` at a position where the pattern matches. -/
theorem expandCore_var (tbl : List (Str × Str)) (rest1 name rest2 : Str)
    (hp : parseVar rest1 = some (name, rest2)) :
    expandCore tbl ('$' :: '{' :: rest1) =
      (match tblGet tbl name with
       | some v => v
       | none => '$' :: '{' :: (name ++ ['}'])) ++ expandCore tbl rest2 := by
  rw [expandCore.eq_def]
  split
  · simp_all
  · next h =>
    injection h with h1 h2
    injection h2 with h3 h4
    subst h4
    split
    · next hp2 =>
      rw [hp] at hp2
      simp only [Option.some.injEq, Prod.mk.injEq] at hp2
      rw [hp2.1, hp2.2]
    · next hp2 => rw [hp] at hp2; cases hp2
  · next hcon heq =>
    injection heq with h1 h2
    subst h1; subst h2
    exact absurd (hcon rest1 rfl rfl) id

/-- Unfolding `expandCore` at a `"${"` that no variable pattern follows. -/
theorem expandCore_novar (tbl : List (Str × Str)) (rest1 : Str)
    (hp : parseVar rest1 = none) :
    expandCore tbl ('$' :: '{' :: rest1) = '$' :: expandCore tbl ('{' :: rest1) := by
  rw [expandCore.eq_def]
  split
  · simp_all
  · next h =>
    injection h with h1 h2
    injection h2 with h3 h4
    subst h4
    split
    · next hp2 => rw [hp] at hp2; cases hp2
    · rfl
  · next hcon heq =>
    injection heq with h1 h2
    subst h1; subst h2
    exact absurd (hcon rest1 rfl rfl) id

/-- Unfolding `expandCore` on any text not starting with `"${"`. -/
theorem expandCore_other (tbl : List (Str × Str)) (c : Char) (rest : Str)
    (h : ∀ r1, c :: rest ≠ '$' :: '{' :: r1) :
    expandCore tbl (c :: rest) = c :: expandCore tbl rest := by
  rw [expandCore.eq_def]
  split
  · simp_all
  · next heq => exact absurd heq (h _)
  · next heq =>
    injection heq with h1 h2
    subst h1; subst h2
    rfl

/-- Unfolding `hasPlaceholder` at a matching position. -/
theorem hasPlaceholder_var (rest1 name rest2 : Str)
    (hp : parseVar rest1 = some (name, rest2)) :
    hasPlaceholder ('$' :: '{' :: rest1) = true := by
  rw [hasPlaceholder]
  rw [hp]

/-- Unfolding `hasPlaceholder` at a `"${"` that no variable pattern
follows. -/
theorem hasPlaceholder_novar (rest1 : Str) (hp : parseVar rest1 = none) :
    hasPlaceholder ('$' :: '{' :: rest1) = hasPlaceholder ('{' :: rest1) := by
  rw [hasPlaceholder]
  rw [hp]

/-- Unfolding `hasPlaceholder` on any text not starting with `"${"`. -/
theorem hasPlaceholder_other (c : Char) (rest : Str)
    (h : ∀ r1, c :: rest ≠ '$' :: '{' :: r1) :
    hasPlaceholder (c :: rest) = hasPlaceholder rest := by
  rw [hasPlaceholder.eq_def]
  split
  · simp_all
  · next heq => exact absurd heq (h _)
  · next heq =>
    injection heq with h1 h2
    subst h1; subst h2
    rfl

/-- Expansion is the identity on texts in which the pattern matches
nowhere (bounded form for the induction). -/
theorem expandCore_id_of_no_placeholder_aux (tbl : List (Str × Str)) :
    ∀ N s, s.length ≤ N → hasPlaceholder s = false → expandCore tbl s = s := by
  intro N
  induction N with
  | zero =>
    intro s hs _
    have : s = [] := List.length_eq_zero.mp (Nat.le_zero.mp hs)
    subst this
    exact expandCore_nil tbl
  | succ n ih =>
    intro s hs hnp
    match s with
    | [] => exact expandCore_nil tbl
    | c :: rest =>
      by_cases hdollar : ∃ r1, c :: rest = '$' :: '{' :: r1
      · obtain ⟨r1, hr1⟩ := hdollar
        injection hr1 with h1 h2
        subst h1; subst h2
        match hp : parseVar r1 with
        | some (name, rest2) =>
          rw [hasPlaceholder_var r1 name rest2 hp] at hnp
          cases hnp
        | none =>
          rw [hasPlaceholder_novar r1 hp] at hnp
          rw [expandCore_novar tbl r1 hp]
          rw [ih ('{' :: r1) (by simp at hs ⊢; omega) hnp]
      · push_neg at hdollar
        rw [expandCore_other tbl c rest hdollar]
        rw [hasPlaceholder_other c rest hdollar] at hnp
        rw [ih rest (by simp at hs; omega) hnp]

/-- Expansion with a table that binds nothing is the identity (bounded
form for the induction): every matched placeholder is kept verbatim. -/
theorem expandCore_id_of_empty_table_aux (tbl : List (Str × Str))
    (htbl : ∀ nm, tblGet tbl nm = none) :
    ∀ N s, s.length ≤ N → expandCore tbl s = s := by
  intro N
  induction N with
  | zero =>
    intro s hs
    have : s = [] := List.length_eq_zero.mp (Nat.le_zero.mp hs)
    subst this
    exact expandCore_nil tbl
  | succ n ih =>
    intro s hs
    match s with
    | [] => exact expandCore_nil tbl
    | c :: rest =>
      by_cases hdollar : ∃ r1, c :: rest = '$' :: '{' :: r1
      · obtain ⟨r1, hr1⟩ := hdollar
        injection hr1 with h1 h2
        subst h1; subst h2
        match hp : parseVar r1 with
        | some (name, rest2) =>
          rw [expandCore_var tbl r1 name rest2 hp]
          rw [htbl name]
          have hlen : rest2.length < r1.length := parseVar_length hp
          rw [ih rest2 (by simp at hs; omega)]
          have hr : r1 = name ++ '}' :: rest2 := by
            unfold parseVar at hp
            split at hp
            · next heq =>
              split at hp
              · exact absurd hp (by simp)
              · simp only [Option.some.injEq, Prod.mk.injEq] at hp
                rw [← hp.1, ← hp.2]
                conv_lhs => rw [← List.takeWhile_append_dropWhile isVarChar r1]
                rw [heq]
            · exact absurd hp (by simp)
          rw [hr]
          simp
        | none =>
          rw [expandCore_novar tbl r1 hp]
          rw [ih ('{' :: r1) (by simp at hs ⊢; omega)]
      · push_neg at hdollar
        rw [expandCore_other tbl c rest hdollar]
        rw [ih rest (by simp at hs; omega)]

/-- Claim C9: environment expansion never fails and acts as the identity
outside placeholders — an input in which the pattern matches nowhere is
returned unchanged, a table binding nothing leaves every placeholder
verbatim, and in particular `"${FOO}"` expands to `"${FOO}"` under the
empty table. -/
theorem expand_total_identity (tbl : List (Str × Str)) (s : Str) :
    (Expand tbl s).isOk = true ∧
    (hasPlaceholder s = false → expandCore tbl s = s) ∧
    ((∀ nm, tblGet tbl nm = none) → expandCore tbl s = s) ∧
    expandCore [] "${FOO}".toList = "${FOO}".toList := by
  refine ⟨rfl, ?_, ?_, ?_⟩
  · exact expandCore_id_of_no_placeholder_aux tbl s.length s le_rfl
  · intro htbl
    exact expandCore_id_of_empty_table_aux tbl htbl s.length s le_rfl
  · exact expandCore_id_of_empty_table_aux [] (fun _ => rfl) _ _ le_rfl

/-- Witness for C9 at concrete inputs. -/
theorem expand_total_identity_witness :
    expandCore [] "abc".toList = "abc".toList ∧
    expandCore [] "${FOO}".toList = "${FOO}".toList :=
  ⟨(expand_total_identity [] "abc".toList).2.1 (by decide),
   (expand_total_identity [] "abc".toList).2.2.2⟩

/-- Appending the marker always yields a marked key. -/
theorem endsEnc_append (k : Str) : endsEnc (k ++ encMark) = true := by
  unfold endsEnc
  rw [List.isSuffixOf_iff_suffix]
  exact ⟨k, rfl⟩

/-- `TrimSuffix` removes exactly the appended marker. -/
theorem trimEnc_append (k : Str) : trimEnc (k ++ encMark) = k := by
  unfold trimEnc
  rw [endsEnc_append]
  simp only [if_true]
  have hlen : (k ++ encMark).length - 4 = k.length := by
    rw [List.length_append]
    rfl
  rw [hlen]
  exact List.take_left' rfl

/-- `TrimSuffix` leaves an unmarked key unchanged. -/
theorem trimEnc_of_not_marked (k : Str) (h : endsEnc k = false) : trimEnc k = k := by
  unfold trimEnc
  rw [h]
  rfl

/-- Stripping one marker from a key that does not carry the doubled
marker yields an unmarked key. -/
theorem trimEnc_unmarked_of_no_double (k : Str)
    (h : encMark2.isSuffixOf k = false) : endsEnc (trimEnc k) = false := by
  by_cases hk : endsEnc k = true
  · unfold endsEnc at hk
    rw [List.isSuffixOf_iff_suffix] at hk
    obtain ⟨t, ht⟩ := hk
    subst ht
    rw [trimEnc_append]
    by_contra h2
    rw [Bool.not_eq_false] at h2
    unfold endsEnc at h2
    rw [List.isSuffixOf_iff_suffix] at h2
    obtain ⟨u, hu⟩ := h2
    subst hu
    have hcontra : encMark2.isSuffixOf (u ++ encMark ++ encMark) = true := by
      rw [List.isSuffixOf_iff_suffix]
      refine ⟨u, ?_⟩
      have hmm : encMark ++ encMark = encMark2 := by decide
      rw [← hmm]
      simp
    rw [hcontra] at h
    cases h
  · rw [Bool.not_eq_true] at hk
    rw [trimEnc_of_not_marked k hk]
    exact hk

/-- A string strictly precedes any proper extension of itself in the
bytewise order. -/
theorem strLt_self_append (k s : Str) (h : s ≠ []) : strLt k (k ++ s) = true := by
  induction k with
  | nil =>
    cases s with
    | nil => exact absurd rfl h
    | cons c rest => rfl
  | cons a as ih =>
    simp only [List.cons_append, strLt, if_pos rfl]
    exact ih

/-- Sorting a single mapping entry. -/
theorem sort_singleton (x : Str × Val) : List.insertionSort keyLe [x] = [x] := by
  simp [List.insertionSort, List.orderedInsert]

/-- Key sorting puts a key before the same key with the marker appended. -/
theorem sort_pair_marker (k : Str) (a b : Val) :
    List.insertionSort keyLe [(k ++ encMark, b), (k, a)] =
      [(k, a), (k ++ encMark, b)] := by
  simp only [List.insertionSort, List.orderedInsert]
  rw [if_neg]
  unfold keyLe
  simp only
  rw [strLt_self_append k encMark (by decide)]
  simp

/-- Writing to the empty map. -/
theorem mapInsert_nil (k : Str) (v : Val) : mapInsert [] k v = [(k, v)] := by
  simp [mapInsert]

/-- Writing to a singleton map under its own key overwrites the value. -/
theorem mapInsert_same (k : Str) (a v : Val) :
    mapInsert [(k, a)] k v = [(k, v)] := by
  simp [mapInsert]

/-- Step equations of the decryption walk, for rewriting. -/
theorem decryptValues_str (dec : Str → Except Err Str) (yp : Str → Option Val)
    (bd s : Str) :
    decryptValues dec yp bd (.str s) =
      (if endsEnc s then decryptValue dec yp s bd else .ok (.str s)) := by
  simp only [decryptValues]

/-- Step equation of the walk on a number. -/
theorem decryptValues_num (dec : Str → Except Err Str) (yp : Str → Option Val)
    (bd : Str) (n : Int) : decryptValues dec yp bd (.num n) = .ok (.num n) := by
  simp only [decryptValues]

/-- Step equation of the walk on a boolean. -/
theorem decryptValues_bool (dec : Str → Except Err Str) (yp : Str → Option Val)
    (bd : Str) (b : Bool) : decryptValues dec yp bd (.bool b) = .ok (.bool b) := by
  simp only [decryptValues]

/-- Step equation of the walk on null. -/
theorem decryptValues_null (dec : Str → Except Err Str) (yp : Str → Option Val)
    (bd : Str) : decryptValues dec yp bd .null = .ok .null := by
  simp only [decryptValues]

/-- Step equation of the walk on a list node. -/
theorem decryptValues_list (dec : Str → Except Err Str) (yp : Str → Option Val)
    (bd : Str) (vs : List Val) :
    decryptValues dec yp bd (.list vs) =
      (match decryptItems dec yp bd vs with
       | .ok r => .ok (.list r)
       | .error e => .error e) := by
  simp only [decryptValues]

/-- Step equation of the walk on a mapping node. -/
theorem decryptValues_map (dec : Str → Except Err Str) (yp : Str → Option Val)
    (bd : Str) (es : List (Str × Val)) :
    decryptValues dec yp bd (.map es) =
      (match decryptEntries dec yp bd (List.insertionSort keyLe es) [] with
       | .ok r => .ok (.map r)
       | .error e => .error e) := by
  simp only [decryptValues]

/-- Step equation of the entry loop on the empty list. -/
theorem decryptEntries_nil (dec : Str → Except Err Str) (yp : Str → Option Val)
    (bd : Str) (acc : List (Str × Val)) :
    decryptEntries dec yp bd [] acc = .ok acc := by
  simp only [decryptEntries]

/-- Step equation of the entry loop on a first entry. -/
theorem decryptEntries_cons (dec : Str → Except Err Str) (yp : Str → Option Val)
    (bd k : Str) (v : Val) (rest acc : List (Str × Val)) :
    decryptEntries dec yp bd ((k, v) :: rest) acc =
      (match decryptValues dec yp bd v with
       | .error e => .error e
       | .ok pv => decryptEntries dec yp bd rest (mapInsert acc (trimEnc k) pv)) := by
  simp only [decryptEntries]

/-- Step equation of the item loop on the empty list. -/
theorem decryptItems_nil (dec : Str → Except Err Str) (yp : Str → Option Val)
    (bd : Str) : decryptItems dec yp bd [] = .ok [] := by
  simp only [decryptItems]

/-- Step equation of the item loop on a first element. -/
theorem decryptItems_cons (dec : Str → Except Err Str) (yp : Str → Option Val)
    (bd : Str) (v : Val) (rest : List Val) :
    decryptItems dec yp bd (v :: rest) =
      (match decryptValues dec yp bd v with
       | .error e => .error e
       | .ok pv =>
         match decryptItems dec yp bd rest with
         | .error e => .error e
         | .ok pr => .ok (pv :: pr)) := by
  simp only [decryptItems]

/-- Step equations of the marker predicates, for rewriting. -/
theorem noMarkKeys_str (m s : Str) : noMarkKeys m (.str s) = true := by
  simp only [noMarkKeys]

/-- Marker predicate on a mapping node. -/
theorem noMarkKeys_map (m : Str) (es : List (Str × Val)) :
    noMarkKeys m (.map es) = noMarkEntries m es := by
  simp only [noMarkKeys]

/-- Marker predicate on the empty entry list. -/
theorem noMarkEntries_nil (m : Str) : noMarkEntries m [] = true := by
  simp only [noMarkEntries]

/-- Marker predicate on a first entry. -/
theorem noMarkEntries_cons (m k : Str) (v : Val) (rest : List (Str × Val)) :
    noMarkEntries m ((k, v) :: rest) =
      (!(m.isSuffixOf k) && noMarkKeys m v && noMarkEntries m rest) := by
  simp only [noMarkEntries]

/-- Claim C8 (amended): the structural expander rewrites string values of
a mapping, recurses into mapping values and, inside a list value,
rewrites string elements and recurses into mapping elements, while a
list nested directly inside a list is left untouched. -/
theorem expandMap_positions (tbl : List (Str × Str)) (k k2 s t : Str) :
    expandMapE tbl [(k, .str s)] = [(k, .str (expandCore tbl s))] ∧
    expandMapE tbl [(k, .map [(k2, .str s)])] =
      [(k, .map [(k2, .str (expandCore tbl s))])] ∧
    expandMapE tbl [(k, .list [.str s, .list [.str t], .map [(k2, .str s)]])] =
      [(k, .list [.str (expandCore tbl s), .list [.str t],
                  .map [(k2, .str (expandCore tbl s))]])] := by
  refine ⟨?_, ?_, ?_⟩ <;> simp [expandMapE, expandItemsE]

/-- Counterexample for claim C8 as stated: with `FOO` bound to `"bar"`,
the string leaf `"${FOO}"` sitting in a list nested inside a list is not
expanded by `ExpandMap`, although expanding that leaf would produce
`"bar"`. -/
theorem expandMap_nested_list_not_expanded :
    expandMapE tbl1 [("k".toList, .list [.list [.str "${FOO}".toList]])] =
      [("k".toList, .list [.list [.str "${FOO}".toList]])] ∧
    expandCore tbl1 "${FOO}".toList = "bar".toList := by
  constructor
  · simp [expandMapE, expandItemsE]
  · rw [show ("${FOO}".toList) = '$' :: '{' :: "FOO\x7d".toList from rfl]
    rw [expandCore_var tbl1 "FOO\x7d".toList "FOO".toList [] (by decide)]
    rw [expandCore_nil]
    decide

/-- Counterexample for claim C6 as stated: with only the username set,
the anonymous clone fails yet the fetch succeeds, so the authenticated
retry did run without both credential variables being set. -/
theorem single_credential_still_retries :
    cloneWithRetry clone1 "u".toList [] = .ok 7 ∧
    clone1 none = .error (.simple "auth required".toList) ∧
    ("u".toList : Str) ≠ [] := by
  refine ⟨rfl, rfl, by decide⟩

/-- Claim C6 (amended): after a failed anonymous clone the fetcher
retries exactly once when at least one of the two credential variables
is non-empty, and does not retry (returning the wrapped first error,
whatever the authenticated transport would do) when both are empty; a
successful anonymous clone is returned directly. -/
theorem clone_retry_iff_any_credential {α : Type}
    (clone : Option BasicAuth → Except Err α) (user pass : Str)
    (e : Err) (r : α) :
    (clone none = .ok r → cloneWithRetry clone user pass = .ok r) ∧
    (clone none = .error e → ¬(user = [] ∧ pass = []) →
      cloneWithRetry clone user pass =
        (match clone (some ⟨user, pass⟩) with
         | .ok r2 => .ok r2
         | .error e2 => .error (.wrap "clone git source ".toList e2))) ∧
    (clone none = .error e → user = [] → pass = [] →
      cloneWithRetry clone user pass =
        .error (.wrap "clone git source ".toList e)) := by
  refine ⟨?_, ?_, ?_⟩
  · intro h
    unfold cloneWithRetry
    rw [h]
  · intro h hcred
    unfold cloneWithRetry
    rw [h]
    unfold basicAuthFromEnv
    rw [if_neg hcred]
  · intro h hu hp
    unfold cloneWithRetry
    rw [h]
    unfold basicAuthFromEnv
    rw [if_pos ⟨hu, hp⟩]

/-- Witness for C6 at concrete transports and credentials. -/
theorem clone_retry_iff_any_credential_witness :
    cloneWithRetry cloneOk [] [] = .ok 3 ∧
    cloneWithRetry clone1 "u".toList [] =
      (match clone1 (some ⟨"u".toList, []⟩) with
       | .ok r2 => .ok r2
       | .error e2 => .error (.wrap "clone git source ".toList e2)) ∧
    cloneWithRetry clone1 [] [] =
      .error (.wrap "clone git source ".toList (.simple "auth required".toList)) :=
  ⟨(clone_retry_iff_any_credential cloneOk [] []
      (.simple [] ) 3).1 rfl,
   (clone_retry_iff_any_credential clone1 "u".toList []
      (.simple "auth required".toList) 7).2.1 rfl (by simp),
   (clone_retry_iff_any_credential clone1 [] []
      (.simple "auth required".toList) 7).2.2 rfl rfl rfl⟩

/-- Merging into the empty accumulator yields the incoming tree. -/
theorem mergeEntries_nil_left (d : List (Str × Val)) : mergeEntries [] d = d := by
  unfold mergeEntries
  rw [mergeOver]
  rw [List.nil_append]
  rw [List.filter_eq_self.mpr]
  intro p _
  rw [lookupV]
  rfl

/-- The extra-files loop surfaces the first failing file's error when the
files before it succeed. -/
theorem loadGo_first_error (readFn : Str → Except Err (List (Str × Val)))
    (f : Str) (e : Err) (post : List Str) (hf : readFn f = .error e) :
    ∀ (pre : List Str) (acc : List (Str × Val)),
      (∀ g ∈ pre, ∃ m, readFn g = .ok m) →
      loadGo readFn (pre ++ f :: post) acc = .error e := by
  intro pre
  induction pre with
  | nil =>
    intro acc _
    rw [List.nil_append]
    rw [loadGo.eq_def]
    dsimp only
    rw [hf]
  | cons g rest ih =>
    intro acc hpre
    obtain ⟨m, hm⟩ := hpre g (by simp)
    rw [List.cons_append]
    rw [loadGo.eq_def]
    dsimp only
    rw [hm]
    exact ih _ (fun g2 hg2 => hpre g2 (by simp [hg2]))

/-- The `Load`-level control flow in isolation: a missing base
`values.yaml` is tolerated and treated as the empty tree, so the load of
one extra file whose per-file pipeline returns `d` yields `d`; and the
first error that the per-file pipeline does surface aborts the whole
load with exactly that error and no partial tree.  (This quantifies over
an arbitrary per-file pipeline `readFn`; the pipeline of the program,
`readValuesFile`, swallows remote fetch errors instead of surfacing
them — see `remote_fetch_error_swallowed`.) -/
theorem load_missing_base_and_first_error
    (readFn : Str → Except Err (List (Str × Val))) (chartPath f : Str)
    (d m0 : List (Str × Val)) (eb e : Err) (pre post : List Str) :
    (readFn (basePath chartPath) = .error eb → isNotExist eb = true →
      readFn f = .ok d → Load readFn chartPath [f] = .ok d) ∧
    ((readFn (basePath chartPath) = .ok m0 ∨
        (readFn (basePath chartPath) = .error eb ∧ isNotExist eb = true)) →
      (∀ g ∈ pre, ∃ m, readFn g = .ok m) → readFn f = .error e →
      Load readFn chartPath (pre ++ f :: post) = .error e) := by
  constructor
  · intro hb hnx hf
    unfold Load
    rw [hb]
    dsimp only
    rw [hnx]
    simp only [if_true]
    rw [loadGo.eq_def]
    dsimp only
    rw [hf]
    dsimp only
    rw [loadGo.eq_def]
    dsimp only
    rw [mergeEntries_nil_left]
  · intro hb hpre hf
    unfold Load
    rcases hb with hok | ⟨herr, hnx⟩
    · rw [hok]
      dsimp only
      exact loadGo_first_error readFn f e post hf pre m0 hpre
    · rw [herr]
      dsimp only
      rw [hnx]
      simp only [if_true]
      exact loadGo_first_error readFn f e post hf pre [] hpre

/-- Concrete instance of the `Load`-level control flow: missing base plus
`extra1` (= `{"a": 1}`) loads to `{"a": 1}`; inserting the failing file
`bad` aborts with its error. -/
theorem load_missing_base_and_first_error_witness :
    Load readFn0 ".".toList ["extra1".toList] = .ok [("a".toList, Val.num 1)] ∧
    Load readFn0 ".".toList ["extra1".toList, "bad".toList] =
      .error (.simple "boom".toList) :=
  ⟨(load_missing_base_and_first_error readFn0 ".".toList "extra1".toList
      [("a".toList, Val.num 1)] [] .notExist (.simple "boom".toList) [] []).1
      rfl rfl rfl,
   (load_missing_base_and_first_error readFn0 ".".toList "bad".toList
      [] [] .notExist (.simple "boom".toList) ["extra1".toList] []).2
      (Or.inr ⟨rfl, rfl⟩)
      (by
        intro g hg
        simp at hg
        subst hg
        exact ⟨[("a".toList, Val.num 1)], rfl⟩)
      rfl⟩

/-- Claim C7: the claim is right about the intent and wrong about the
program — in `readValuesFile` the statement `src, err := sourceFactory.New(path)`
shadows `err`, so `data, err = src.Fetch(ctx)` stores the fetch error in
the dead block-scoped variable and the outer nil `err` passes the check
meant to surface it.  Here every remote fetch fails, the base
`values.yaml` does not exist, and yet loading the extra file
`s3://b/values.yaml` succeeds with the empty tree instead of aborting
with the fetch error. -/
theorem remote_fetch_error_swallowed :
    fetch0 "s3://b/values.yaml".toList = .error (.simple "fetch failed".toList) ∧
    readValuesFile localRead0 factoryNew0 fetch0 [] ydec0 dec2 yp2 dirOf0
        "s3://b/values.yaml".toList = .ok [] ∧
    Load (readValuesFile localRead0 factoryNew0 fetch0 [] ydec0 dec2 yp2 dirOf0)
        ".".toList ["s3://b/values.yaml".toList] = .ok [] := by
  have hextra : readValuesFile localRead0 factoryNew0 fetch0 [] ydec0 dec2 yp2 dirOf0
      "s3://b/values.yaml".toList = .ok [] := by
    unfold readValuesFile
    rw [if_neg (show ¬ ("s3://b/values.yaml".toList = ([] : Str)) from by decide)]
    rw [show readRaw localRead0 factoryNew0 fetch0 dirOf0 "s3://b/values.yaml".toList
          = .ok (([] : Str), none, ([] : Str)) from rfl]
    dsimp only
    rw [expandCore_nil]
    rw [show ydec0 [] = .ok [] from rfl]
    dsimp only
    rw [decryptValues_map]
    rw [show List.insertionSort keyLe ([] : List (Str × Val)) = [] from rfl]
    rw [decryptEntries_nil]
  have hbase : readValuesFile localRead0 factoryNew0 fetch0 [] ydec0 dec2 yp2 dirOf0
      (basePath ".".toList) = .error .notExist := rfl
  refine ⟨rfl, hextra, ?_⟩
  unfold Load
  rw [hbase]
  dsimp only
  rw [show isNotExist Err.notExist = true from rfl]
  simp only [if_true]
  rw [loadGo.eq_def]
  dsimp only
  rw [hextra]
  dsimp only
  rw [loadGo.eq_def]
  dsimp only
  rw [mergeEntries_nil_left]

/-- Claim C4 (amended): a `.enc`-suffixed key whose value is not a string
is not rejected by tree decryption; the suffix is stripped and the value
(number, boolean, null, or a list of such) passes through unchanged. -/
theorem enc_key_nonstring_passes_through
    (dec : Str → Except Err Str) (yp : Str → Option Val)
    (bd k : Str) (n : Int) (b : Bool) :
    decryptValues dec yp bd (.map [(k, .num n)]) =
      .ok (.map [(trimEnc k, .num n)]) ∧
    decryptValues dec yp bd (.map [(k, .bool b)]) =
      .ok (.map [(trimEnc k, .bool b)]) ∧
    decryptValues dec yp bd (.map [(k, .null)]) =
      .ok (.map [(trimEnc k, .null)]) ∧
    decryptValues dec yp bd (.map [(k, .list [.num n])]) =
      .ok (.map [(trimEnc k, .list [.num n])]) := by
  refine ⟨?_, ?_, ?_, ?_⟩
  · rw [decryptValues_map, sort_singleton, decryptEntries_cons, decryptValues_num]
    dsimp only
    rw [decryptEntries_nil, mapInsert_nil]
  · rw [decryptValues_map, sort_singleton, decryptEntries_cons, decryptValues_bool]
    dsimp only
    rw [decryptEntries_nil, mapInsert_nil]
  · rw [decryptValues_map, sort_singleton, decryptEntries_cons, decryptValues_null]
    dsimp only
    rw [decryptEntries_nil, mapInsert_nil]
  · rw [decryptValues_map, sort_singleton, decryptEntries_cons, decryptValues_list,
      decryptItems_cons, decryptValues_num]
    dsimp only
    rw [decryptItems_nil]
    dsimp only
    rw [decryptEntries_nil, mapInsert_nil]

/-- Counterexample for claim C4 as stated: the `.enc` key `"a.enc"` with
the number `7` is not a structural error — decryption succeeds, strips
the marker and passes the number through. -/
theorem enc_key_number_is_not_an_error :
    decryptValues dec0 yp0 [] (.map [("a.enc".toList, .num 7)]) =
      .ok (.map [("a".toList, .num 7)]) := by
  rw [decryptValues_map, sort_singleton, decryptEntries_cons, decryptValues_num]
  dsimp only
  rw [decryptEntries_nil, mapInsert_nil]
  rw [show trimEnc "a.enc".toList = "a".toList from by decide]

/-- Counterexample for claim C1 as stated: the decryptor maps every
reference to the plaintext `"secret123"`, and the key `"token.enc"` holds
the string reference `"ref"`; decryption strips the marker from the key
but leaves the value `"ref"` undecrypted (it does not itself end in
`".enc"`), so `"token"` is not bound to the decrypted plaintext. -/
theorem key_marker_alone_is_not_decrypted :
    decryptValues dec0 yp0 [] (.map [("token.enc".toList, .str "ref".toList)]) =
      .ok (.map [("token".toList, .str "ref".toList)]) ∧
    ("ref".toList : Str) ≠ "secret123".toList := by
  constructor
  · rw [decryptValues_map, sort_singleton, decryptEntries_cons, decryptValues_str]
    rw [show endsEnc "ref".toList = false from by decide]
    simp only [Bool.false_eq_true, if_false]
    rw [decryptEntries_nil, mapInsert_nil]
    rw [show trimEnc "token.enc".toList = "token".toList from by decide]
  · decide

/-- Claim C1 (amended): a mapping key carrying the `".enc"` suffix always
appears in the output with the suffix stripped, and its string value is
replaced by the decrypted plaintext exactly when the value itself ends
in `".enc"`: a reference `ref` with that suffix whose decryption (and
plaintext parse) yields `v` leaves the stripped key bound to `v`. -/
theorem enc_key_with_enc_reference_decrypts
    (dec : Str → Except Err Str) (yp : Str → Option Val)
    (bd k ref : Str) (v : Val)
    (h1 : endsEnc ref = true)
    (h2 : decryptValue dec yp ref bd = .ok v) :
    decryptValues dec yp bd (.map [(k ++ encMark, .str ref)]) =
      .ok (.map [(k, v)]) := by
  rw [decryptValues_map, sort_singleton, decryptEntries_cons, decryptValues_str]
  rw [h1]
  simp only [if_true]
  rw [h2]
  dsimp only
  rw [decryptEntries_nil, mapInsert_nil]
  rw [trimEnc_append]

/-- Witness for C1: the key `"token" ++ ".enc"` holding the reference
`"tok.enc"`, which decrypts to `"secret123"`, yields `"token"` bound to
`"secret123"`. -/
theorem enc_key_with_enc_reference_decrypts_witness :
    endsEnc "tok.enc".toList = true ∧
    decryptValues dec0 yp0 []
        (.map [("token".toList ++ encMark, .str "tok.enc".toList)]) =
      .ok (.map [("token".toList, .str "secret123".toList)]) :=
  ⟨by decide,
   enc_key_with_enc_reference_decrypts dec0 yp0 [] "token".toList
     "tok.enc".toList (.str "secret123".toList) (by decide) rfl⟩

/-- Claim C2: whether a string leaf is decrypted is decided by the string
value's own `".enc"` suffix, not by its key — a bare string leaf and a
string element of a list (where no key exists) are passed to the
decryptor exactly when they end in `".enc"`, and a string under any
mapping key (en-suffixed or not) is decrypted exactly when the value
ends in `".enc"`, the key in all cases merely losing one `".enc"`. -/
theorem decrypt_dispatch_by_value_suffix
    (dec : Str → Except Err Str) (yp : Str → Option Val) (bd s k : Str) :
    decryptValues dec yp bd (.str s) =
      (if endsEnc s then decryptValue dec yp s bd else .ok (.str s)) ∧
    decryptValues dec yp bd (.list [.str s]) =
      (if endsEnc s then (decryptValue dec yp s bd).map (fun v => .list [v])
       else .ok (.list [.str s])) ∧
    decryptValues dec yp bd (.map [(k, .str s)]) =
      (if endsEnc s then
         (decryptValue dec yp s bd).map (fun v => .map [(trimEnc k, v)])
       else .ok (.map [(trimEnc k, .str s)])) := by
  refine ⟨decryptValues_str dec yp bd s, ?_, ?_⟩
  · by_cases h : endsEnc s = true
    · rw [decryptValues_list, decryptItems_cons, decryptValues_str, h]
      simp only [if_true]
      cases hdv : decryptValue dec yp s bd with
      | error e => rfl
      | ok v =>
        dsimp only
        rw [decryptItems_nil]
        rfl
    · rw [Bool.not_eq_true] at h
      rw [decryptValues_list, decryptItems_cons, decryptValues_str, h]
      simp only [Bool.false_eq_true, if_false]
      rw [decryptItems_nil]
  · by_cases h : endsEnc s = true
    · rw [decryptValues_map, sort_singleton, decryptEntries_cons, decryptValues_str, h]
      simp only [if_true]
      cases hdv : decryptValue dec yp s bd with
      | error e => rfl
      | ok v =>
        dsimp only
        rw [decryptEntries_nil, mapInsert_nil]
        rfl
    · rw [Bool.not_eq_true] at h
      rw [decryptValues_map, sort_singleton, decryptEntries_cons, decryptValues_str, h]
      simp only [Bool.false_eq_true, if_false]
      rw [decryptEntries_nil, mapInsert_nil]

/-- Claim C10: when a mapping holds both `k` and `k ++ ".enc"` (listed
here with `k ++ ".enc"` first to show that sorting, not entry order,
decides), the keys are processed in sorted order: `k` is written first,
the value derived from `k ++ ".enc"` then silently overwrites it, and
decryption succeeds with the single binding of `k` to the value derived
from `k ++ ".enc"`. -/
theorem duplicate_key_enc_overwrites
    (dec : Str → Except Err Str) (yp : Str → Option Val)
    (bd k : Str) (a b a2 b2 : Val)
    (hk : endsEnc k = false)
    (ha : decryptValues dec yp bd a = .ok a2)
    (hb : decryptValues dec yp bd b = .ok b2) :
    decryptValues dec yp bd (.map [(k ++ encMark, b), (k, a)]) =
      .ok (.map [(k, b2)]) := by
  rw [decryptValues_map, sort_pair_marker, decryptEntries_cons]
  rw [ha]
  dsimp only
  rw [mapInsert_nil]
  rw [trimEnc_of_not_marked k hk]
  rw [decryptEntries_cons]
  rw [hb]
  dsimp only
  rw [trimEnc_append]
  rw [mapInsert_same]
  rw [decryptEntries_nil]

/-- Witness for C10: the mapping with `"token.enc"` bound to `true` and
`"token"` bound to `1` decrypts to the single binding of `"token"` to
`true`. -/
theorem duplicate_key_enc_overwrites_witness :
    decryptValues dec0 yp0 []
        (.map [("token".toList ++ encMark, .bool true), ("token".toList, .num 1)]) =
      .ok (.map [("token".toList, .bool true)]) :=
  duplicate_key_enc_overwrites dec0 yp0 [] "token".toList
    (.num 1) (.bool true) (.num 1) (.bool true)
    (by decide) (decryptValues_num dec0 yp0 [] 1) (decryptValues_bool dec0 yp0 [] true)

/-- Lookup distributes over appended maps. -/
theorem lookupV_append (xs ys : List (Str × Val)) (k : Str) :
    lookupV (xs ++ ys) k =
      (match lookupV xs k with
       | some v => some v
       | none => lookupV ys k) := by
  induction xs with
  | nil => rw [List.nil_append]; rfl
  | cons p rest ih =>
    obtain ⟨k1, v1⟩ := p
    rw [List.cons_append]
    rw [lookupV]
    rw [lookupV]
    by_cases hk : k1 = k
    · rw [if_pos hk, if_pos hk]
    · rw [if_neg hk, if_neg hk]
      exact ih

/-- Step equation of the merge accumulator walk. -/
theorem mergeOver_cons (k1 : Str) (v1 : Val) (rest b : List (Str × Val)) :
    mergeOver ((k1, v1) :: rest) b =
      (match lookupV b k1 with
       | some vb => (k1, mergeVal v1 vb)
       | none => (k1, v1)) :: mergeOver rest b := by
  rw [mergeOver.eq_def]
  dsimp only
  split
  · next vb hb => rw [hb]
  · next hb => rw [hb]

/-- The bindings of the merged accumulator side: every key of the
accumulator keeps its (possibly recursively merged) value. -/
theorem lookup_mergeOver (a b : List (Str × Val)) (k : Str) :
    lookupV (mergeOver a b) k =
      (lookupV a k).map (fun va =>
        match lookupV b k with
        | some vb => mergeVal va vb
        | none => va) := by
  induction a with
  | nil => rw [mergeOver]; rfl
  | cons p rest ih =>
    obtain ⟨k1, v1⟩ := p
    rw [mergeOver_cons]
    by_cases hk : k1 = k
    · subst hk
      cases hb : lookupV b k1 with
      | some vb => simp [lookupV, hb]
      | none => simp [lookupV, hb]
    · cases hb : lookupV b k1 with
      | some vb => simp [lookupV, hb, hk, ih]
      | none => simp [lookupV, hb, hk, ih]

/-- Keys absent from the accumulator reach the filtered incoming entries
unchanged. -/
theorem lookup_filter_new (a b : List (Str × Val)) (k : Str)
    (ha : lookupV a k = none) :
    lookupV (b.filter fun p => (lookupV a p.1).isNone) k = lookupV b k := by
  induction b with
  | nil => rfl
  | cons p rest ih =>
    obtain ⟨k1, v1⟩ := p
    by_cases hk : k1 = k
    · subst hk
      rw [List.filter_cons]
      rw [show ((lookupV a k1).isNone = true) from by rw [ha]; rfl]
      simp only [if_true]
      rw [lookupV]
      rw [if_pos rfl]
      rw [lookupV]
      rw [if_pos rfl]
    · rw [List.filter_cons]
      by_cases hp : (lookupV a k1).isNone = true
      · rw [hp]
        simp only [if_true]
        rw [lookupV]
        rw [if_neg hk]
        rw [lookupV]
        rw [if_neg hk]
        exact ih
      · simp only [hp]
        simp only [Bool.false_eq_true, if_false]
        rw [lookupV]
        rw [if_neg hk]
        exact ih

/-- Claim C3 (spec-modelled merge): deep merge with override — the merged
mapping binds every shared key to the recursive merge of the two values,
keeps accumulator-only keys, adds incoming-only keys, and at any
non-mapping incoming value (or non-mapping accumulator value, the type
mismatch case) the incoming layer wins outright. -/
theorem merge_deep_override (a b : List (Str × Val)) (k : Str) (acc inc : Val) :
    (lookupV (mergeEntries a b) k =
      (match lookupV a k, lookupV b k with
       | some va, some vb => some (mergeVal va vb)
       | some va, none => some va
       | none, ob => ob)) ∧
    (isMapV inc = false → mergeVal acc inc = inc) ∧
    (isMapV acc = false → mergeVal acc inc = inc) ∧
    mergeVal (.map a) (.map b) = .map (mergeEntries a b) := by
  refine ⟨?_, ?_, ?_, ?_⟩
  · unfold mergeEntries
    rw [lookupV_append]
    rw [lookup_mergeOver]
    cases hA : lookupV a k with
    | some va =>
      cases hB : lookupV b k with
      | some vb => simp [hB]
      | none => simp [hB]
    | none =>
      simpa using lookup_filter_new a b k hA
  · intro h
    cases inc with
    | map b2 => simp [isMapV] at h
    | str s2 => cases acc <;> rw [mergeVal.eq_def]
    | num n2 => cases acc <;> rw [mergeVal.eq_def]
    | bool b2 => cases acc <;> rw [mergeVal.eq_def]
    | null => cases acc <;> rw [mergeVal.eq_def]
    | list l2 => cases acc <;> rw [mergeVal.eq_def]
  · intro h
    cases acc with
    | map a2 => simp [isMapV] at h
    | str s2 => cases inc <;> rw [mergeVal.eq_def]
    | num n2 => cases inc <;> rw [mergeVal.eq_def]
    | bool b2 => cases inc <;> rw [mergeVal.eq_def]
    | null => cases inc <;> rw [mergeVal.eq_def]
    | list l2 => cases inc <;> rw [mergeVal.eq_def]
  · rw [mergeVal.eq_def]
    rfl

/-- Witness for C3: the spec's type-conflict override example — the
accumulator `{"a": {"x": 1}}` merged with the incoming scalar `"scalar"`
yields the scalar, and the reverse mismatch also yields the incoming
layer. -/
theorem merge_deep_override_witness :
    mergeVal (.map [("a".toList, .map [("x".toList, Val.num 1)])])
        (.str "scalar".toList) = .str "scalar".toList ∧
    mergeVal (.str "s".toList) (.map [("z".toList, Val.num 4)]) =
      .map [("z".toList, Val.num 4)] :=
  ⟨(merge_deep_override [] [] [] (.map [("a".toList, .map [("x".toList, Val.num 1)])])
      (.str "scalar".toList)).2.1 (by decide),
   (merge_deep_override [] [] [] (.str "s".toList)
      (.map [("z".toList, Val.num 4)])).2.2.1 (by decide)⟩

/-- The spec's merge-override example, evaluated on the modelled merge:
`{"a": {"x": 1, "y": 2}}` merged with `{"a": {"y": 3, "z": 4}}` gives
`{"a": {"x": 1, "y": 3, "z": 4}}`. -/
theorem merge_example :
    mergeVal
        (.map [("a".toList, .map [("x".toList, .num 1), ("y".toList, .num 2)])])
        (.map [("a".toList, .map [("y".toList, .num 3), ("z".toList, .num 4)])]) =
      .map [("a".toList,
             .map [("x".toList, .num 1), ("y".toList, .num 3),
                   ("z".toList, .num 4)])] := by
  rw [mergeVal.eq_def]
  dsimp only
  rw [mergeOver_cons]
  rw [show lookupV [("a".toList, Val.map [("y".toList, Val.num 3), ("z".toList, Val.num 4)])] "a".toList
        = some (Val.map [("y".toList, Val.num 3), ("z".toList, Val.num 4)]) from rfl]
  dsimp only
  rw [mergeVal.eq_def]
  dsimp only
  rw [mergeOver_cons]
  rw [show lookupV [("y".toList, Val.num 3), ("z".toList, Val.num 4)] "x".toList = none from rfl]
  rw [mergeOver_cons]
  rw [show lookupV [("y".toList, Val.num 3), ("z".toList, Val.num 4)] "y".toList = some (Val.num 3) from rfl]
  dsimp only
  rw [mergeVal.eq_def]
  dsimp only
  simp only [mergeOver]
  rw [show List.filter
        (fun p => (lookupV [("x".toList, Val.num 1), ("y".toList, Val.num 2)] p.1).isNone)
        [("y".toList, Val.num 3), ("z".toList, Val.num 4)]
      = [("z".toList, Val.num 4)] from rfl]
  rw [show List.filter
        (fun p => (lookupV [("a".toList, Val.map [("x".toList, Val.num 1), ("y".toList, Val.num 2)])] p.1).isNone)
        [("a".toList, Val.map [("y".toList, Val.num 3), ("z".toList, Val.num 4)])]
      = [] from rfl]
  rfl

/-- Marker-freedom of appended entry lists. -/
theorem noMarkEntries_append (m : Str) (xs ys : List (Str × Val)) :
    noMarkEntries m (xs ++ ys) = (noMarkEntries m xs && noMarkEntries m ys) := by
  induction xs with
  | nil =>
    rw [List.nil_append]
    rw [show noMarkEntries m [] = true from by simp [noMarkEntries]]
    rw [Bool.true_and]
  | cons p rest ih =>
    obtain ⟨k, v⟩ := p
    rw [List.cons_append]
    simp only [noMarkEntries]
    rw [ih]
    simp [Bool.and_assoc]

/-- Every entry of a marker-free entry list has an unmarked key and a
marker-free value. -/
theorem noMarkEntries_mem {m : Str} {es : List (Str × Val)}
    (h : noMarkEntries m es = true) {p : Str × Val} (hp : p ∈ es) :
    m.isSuffixOf p.1 = false ∧ noMarkKeys m p.2 = true := by
  induction es with
  | nil => cases hp
  | cons q rest ih =>
    obtain ⟨k, v⟩ := q
    simp only [noMarkEntries, Bool.and_eq_true, Bool.not_eq_true'] at h
    obtain ⟨⟨h1, h2⟩, h3⟩ := h
    rcases List.mem_cons.mp hp with hhead | htail
    · subst hhead
      exact ⟨h1, h2⟩
    · exact ih h3 htail

/-- Every element of a marker-free item list is marker-free. -/
theorem noMarkItems_mem {m : Str} {vs : List Val}
    (h : noMarkItems m vs = true) {x : Val} (hx : x ∈ vs) :
    noMarkKeys m x = true := by
  induction vs with
  | nil => cases hx
  | cons v rest ih =>
    simp only [noMarkItems, Bool.and_eq_true] at h
    rcases List.mem_cons.mp hx with hhead | htail
    · subst hhead
      exact h.1
    · exact ih h.2 htail

/-- The key-overwriting rewrite of a Go-map write preserves
marker-freedom when the written key is unmarked and the written value is
marker-free. -/
theorem noMarkEntries_map_overwrite (m k : Str) (v : Val)
    (hk : m.isSuffixOf k = false) (hv : noMarkKeys m v = true) :
    ∀ acc, noMarkEntries m acc = true →
      noMarkEntries m (List.map (fun p => if p.1 = k then (k, v) else p) acc) = true := by
  intro acc
  induction acc with
  | nil =>
    intro _
    rw [List.map_nil]
    simp [noMarkEntries]
  | cons p rs ih =>
    intro hacc
    obtain ⟨k1, v1⟩ := p
    simp only [noMarkEntries, Bool.and_eq_true, Bool.not_eq_true'] at hacc
    obtain ⟨⟨h1, h2⟩, h3⟩ := hacc
    rw [List.map_cons]
    by_cases hk1 : (k1, v1).1 = k
    · rw [if_pos hk1]
      simp only [noMarkEntries, Bool.and_eq_true, Bool.not_eq_true']
      exact ⟨⟨hk, hv⟩, ih h3⟩
    · rw [if_neg hk1]
      simp only [noMarkEntries, Bool.and_eq_true, Bool.not_eq_true']
      exact ⟨⟨h1, h2⟩, ih h3⟩

/-- A Go-map write preserves marker-freedom when the written key is
unmarked and the written value is marker-free. -/
theorem noMarkEntries_mapInsert {m k : Str} {v : Val} {acc : List (Str × Val)}
    (hacc : noMarkEntries m acc = true) (hk : m.isSuffixOf k = false)
    (hv : noMarkKeys m v = true) :
    noMarkEntries m (mapInsert acc k v) = true := by
  unfold mapInsert
  by_cases hany : acc.any (fun p => p.1 = k) = true
  · rw [hany]
    simp only [if_true]
    exact noMarkEntries_map_overwrite m k v hk hv acc hacc
  · rw [Bool.not_eq_true] at hany
    rw [hany]
    simp only [Bool.false_eq_true, if_false]
    rw [noMarkEntries_append]
    rw [hacc]
    rw [Bool.true_and]
    simp only [noMarkEntries, Bool.and_eq_true, Bool.not_eq_true']
    exact ⟨⟨hk, hv⟩, by simp [noMarkEntries]⟩

/-- The list loop of decryption yields marker-free elements when every
element is bounded, carries no doubled marker, and the inductive
hypothesis holds below the bound. -/
theorem decryptItems_noMark (dec : Str → Except Err Str) (yp : Str → Option Val)
    (bd : Str) (n : Nat)
    (IH : ∀ v, sizeOf v ≤ n → noMarkKeys encMark2 v = true →
      ∀ r, decryptValues dec yp bd v = .ok r → noMarkKeys encMark r = true) :
    ∀ vs rs, (∀ x ∈ vs, sizeOf x ≤ n) → noMarkItems encMark2 vs = true →
      decryptItems dec yp bd vs = .ok rs → noMarkItems encMark rs = true := by
  intro vs
  induction vs with
  | nil =>
    intro rs _ _ hok
    simp only [decryptItems] at hok
    injection hok with h
    subst h
    simp [noMarkItems]
  | cons x rest ih =>
    intro rs hsz hdbl hok
    simp only [decryptItems] at hok
    simp only [noMarkItems, Bool.and_eq_true] at hdbl
    cases hx : decryptValues dec yp bd x with
    | error e => rw [hx] at hok; cases hok
    | ok pv =>
      rw [hx] at hok
      dsimp only at hok
      cases hrest : decryptItems dec yp bd rest with
      | error e => rw [hrest] at hok; cases hok
      | ok prs =>
        rw [hrest] at hok
        dsimp only at hok
        injection hok with h
        subst h
        simp only [noMarkItems, Bool.and_eq_true]
        refine ⟨IH x (hsz x (by simp)) hdbl.1 pv hx, ?_⟩
        exact ih prs (fun y hy => hsz y (by simp [hy])) hdbl.2 hrest

/-- The sorted-entry loop of decryption yields a marker-free map when the
entries are bounded, carry no doubled marker, the accumulator is
marker-free, and the inductive hypothesis holds below the bound. -/
theorem decryptEntries_noMark (dec : Str → Except Err Str) (yp : Str → Option Val)
    (bd : Str) (n : Nat)
    (IH : ∀ v, sizeOf v ≤ n → noMarkKeys encMark2 v = true →
      ∀ r, decryptValues dec yp bd v = .ok r → noMarkKeys encMark r = true) :
    ∀ es acc racc,
      (∀ p ∈ es, sizeOf p.2 ≤ n) →
      (∀ p ∈ es, encMark2.isSuffixOf p.1 = false ∧ noMarkKeys encMark2 p.2 = true) →
      noMarkEntries encMark acc = true →
      decryptEntries dec yp bd es acc = .ok racc →
      noMarkEntries encMark racc = true := by
  intro es
  induction es with
  | nil =>
    intro acc racc _ _ hacc hok
    simp only [decryptEntries] at hok
    injection hok with h
    subst h
    exact hacc
  | cons p rest ih =>
    intro acc racc hsz hkeys hacc hok
    obtain ⟨k, v⟩ := p
    simp only [decryptEntries] at hok
    cases hv : decryptValues dec yp bd v with
    | error e => rw [hv] at hok; cases hok
    | ok pv =>
      rw [hv] at hok
      dsimp only at hok
      refine ih (mapInsert acc (trimEnc k) pv) racc
        (fun q hq => hsz q (by simp [hq]))
        (fun q hq => hkeys q (by simp [hq]))
        ?_ hok
      have hhead := hkeys (k, v) (by simp)
      refine noMarkEntries_mapInsert hacc ?_ ?_
      · exact trimEnc_unmarked_of_no_double k hhead.1
      · exact IH v (hsz (k, v) (by simp)) hhead.2 pv hv

/-- Bounded form of the output invariant of tree decryption: with every
decrypted substitution marker-free and no doubled marker in the input,
the output of a successful decryption has no `".enc"` key. -/
theorem decryptValues_noMark_aux (dec : Str → Except Err Str)
    (yp : Str → Option Val) (bd : Str)
    (hsub : ∀ ref v, decryptValue dec yp ref bd = .ok v →
      noMarkKeys encMark v = true) :
    ∀ n v r, sizeOf v ≤ n → noMarkKeys encMark2 v = true →
      decryptValues dec yp bd v = .ok r → noMarkKeys encMark r = true := by
  intro n
  induction n with
  | zero =>
    intro v r hsz _ _
    exfalso
    cases v <;> simp at hsz
  | succ n ihn =>
    intro v r hsz hdbl hok
    cases v with
    | str s =>
      simp only [decryptValues] at hok
      by_cases hs : endsEnc s = true
      · rw [hs] at hok
        simp only [if_true] at hok
        exact hsub s r hok
      · rw [Bool.not_eq_true] at hs
        rw [hs] at hok
        simp only [Bool.false_eq_true, if_false] at hok
        injection hok with h
        subst h
        simp [noMarkKeys]
    | num n2 =>
      simp only [decryptValues] at hok
      injection hok with h
      subst h
      simp [noMarkKeys]
    | bool b2 =>
      simp only [decryptValues] at hok
      injection hok with h
      subst h
      simp [noMarkKeys]
    | null =>
      simp only [decryptValues] at hok
      injection hok with h
      subst h
      simp [noMarkKeys]
    | list vs =>
      simp only [decryptValues] at hok
      cases hit : decryptItems dec yp bd vs with
      | error e => rw [hit] at hok; cases hok
      | ok rs =>
        rw [hit] at hok
        dsimp only at hok
        injection hok with h
        subst h
        simp only [noMarkKeys] at hdbl ⊢
        refine decryptItems_noMark dec yp bd n (fun v hv hd r => ihn v r hv hd) vs rs ?_ hdbl hit
        intro x hx
        have h1 := List.sizeOf_lt_of_mem hx
        simp only [Val.list.sizeOf_spec] at hsz
        omega
    | map es =>
      simp only [decryptValues] at hok
      cases hent : decryptEntries dec yp bd (List.insertionSort keyLe es) [] with
      | error e => rw [hent] at hok; cases hok
      | ok rs =>
        rw [hent] at hok
        dsimp only at hok
        injection hok with h
        subst h
        simp only [noMarkKeys] at hdbl ⊢
        refine decryptEntries_noMark dec yp bd n (fun v hv hd r => ihn v r hv hd)
          (List.insertionSort keyLe es) [] rs ?_ ?_ (by simp [noMarkEntries]) hent
        · intro p hp
          have hp2 : p ∈ es := ((List.perm_insertionSort keyLe es).mem_iff).mp hp
          have h1 := List.sizeOf_lt_of_mem hp2
          obtain ⟨pk, pv⟩ := p
          simp only [Prod.mk.sizeOf_spec] at h1
          simp only [Val.map.sizeOf_spec] at hsz
          simp only
          omega
        · intro p hp
          have hp2 : p ∈ es := ((List.perm_insertionSort keyLe es).mem_iff).mp hp
          exact noMarkEntries_mem hdbl hp2

/-- Claim C5 (amended): for every input tree on which tree decryption
succeeds, no mapping key of the output ends in `".enc"`, provided no
input key ends in `".enc.enc"` (stripping is single) and every tree
substituted for a decrypted reference is itself free of `".enc"` keys. -/
theorem decrypt_output_has_no_enc_keys (dec : Str → Except Err Str)
    (yp : Str → Option Val) (bd : Str)
    (hsub : ∀ ref v, decryptValue dec yp ref bd = .ok v →
      noMarkKeys encMark v = true)
    (v r : Val) (hv : noMarkKeys encMark2 v = true)
    (hr : decryptValues dec yp bd v = .ok r) :
    noMarkKeys encMark r = true :=
  decryptValues_noMark_aux dec yp bd hsub (sizeOf v) v r le_rfl hv hr

/-- Counterexample for claim C5 as stated: the input key `"x.enc.enc"`
loses only one marker, so the output key `"x.enc"` still ends in
`".enc"`. -/
theorem double_marker_survives_decryption :
    decryptValues dec0 yp0 [] (.map [("x.enc.enc".toList, .num 1)]) =
      .ok (.map [("x.enc".toList, .num 1)]) ∧
    endsEnc "x.enc".toList = true := by
  constructor
  · rw [decryptValues_map, sort_singleton, decryptEntries_cons, decryptValues_num]
    dsimp only
    rw [decryptEntries_nil, mapInsert_nil]
    rw [show trimEnc "x.enc.enc".toList = "x.enc".toList from by decide]
  · decide

/-- Witness for C5: the tree `{"a.enc": "r.enc"}` (no doubled marker, and
every substitution under `dec2`/`yp2` is the plain string `"x"`)
decrypts to `{"a": "x"}`, which carries no `".enc"` key. -/
theorem decrypt_output_has_no_enc_keys_witness :
    noMarkKeys encMark2 (.map [("a.enc".toList, .str "r.enc".toList)]) = true ∧
    noMarkKeys encMark (.map [("a".toList, .str "x".toList)]) = true := by
  have hdecval : ∀ ref : Str, decryptValue dec2 yp2 ref [] = .ok (.str "x".toList) := by
    intro ref
    unfold decryptValue
    simp only [dec2]
    rw [show trimSpace "x".toList = "x".toList from rfl]
    rw [if_neg (by decide)]
    simp [yp2]
  have hsub : ∀ ref v, decryptValue dec2 yp2 ref [] = .ok v →
      noMarkKeys encMark v = true := by
    intro ref v h
    rw [hdecval ref] at h
    injection h with h2
    subst h2
    exact noMarkKeys_str encMark "x".toList
  have hdbl : noMarkKeys encMark2 (Val.map [("a.enc".toList, .str "r.enc".toList)]) = true := by
    rw [noMarkKeys_map, noMarkEntries_cons, noMarkKeys_str, noMarkEntries_nil]
    decide
  have heval : decryptValues dec2 yp2 [] (.map [("a.enc".toList, .str "r.enc".toList)]) =
      .ok (.map [("a".toList, .str "x".toList)]) := by
    rw [decryptValues_map, sort_singleton, decryptEntries_cons, decryptValues_str]
    rw [show endsEnc "r.enc".toList = true from by decide]
    simp only [if_true]
    rw [hdecval "r.enc".toList]
    dsimp only
    rw [decryptEntries_nil, mapInsert_nil]
    rw [show trimEnc "a.enc".toList = "a".toList from by decide]
  exact ⟨hdbl,
    decrypt_output_has_no_enc_keys dec2 yp2 [] hsub
      (.map [("a.enc".toList, .str "r.enc".toList)])
      (.map [("a".toList, .str "x".toList)]) hdbl heval⟩
